import Mathlib

/-!
Verification of the pricing core of `src/black_scholes.py`.

The two core functions are embedded shallowly over the real numbers:

* `black_scholes S K T r sigma option_type` models the Python function
  `black_scholes`; `scipy.stats.norm.cdf` is modelled by `normCdf`, the
  standard normal cumulative distribution function, and the Python floats
  are modelled as real numbers.  A raised `ValueError` is modelled as an
  `Except.error`.
* `get_historical_volatility` models the computation performed by the
  Python function of the same name on the downloaded price column
  (`Adj Close`): the external `yfinance` download is replaced by the list
  of observations handed to the function, with `none` standing for a
  missing (NaN) entry.  The pandas operations `shift`/`np.log`,
  `.std()` (which skips NaN entries, uses the `n-1` divisor, and yields
  NaN when fewer than two valid entries remain) are modelled by
  `logReturns` and `pandasStd`, with `none` standing for a NaN result.
-/

open Real Set MeasureTheory Filter Topology intervalIntegral

/-- Unnormalised Gaussian bell curve, the integrand of the normal CDF. -/
noncomputable def gauss (t : ℝ) : ℝ := Real.exp (-t ^ 2 / 2)

/-- Standard normal probability density function. -/
noncomputable def normPdf (x : ℝ) : ℝ := gauss x / Real.sqrt (2 * Real.pi)

/-- Standard normal cumulative distribution function, the model of
`scipy.stats.norm.cdf`. -/
noncomputable def normCdf (x : ℝ) : ℝ :=
  (∫ t in Set.Iic x, gauss t) / Real.sqrt (2 * Real.pi)

/-- Model of the Python string method `lower` (character-wise lowering, which
agrees with `str.lower` on the ASCII strings relevant here). -/
def pyLower (s : String) : String := String.mk (s.data.map Char.toLower)

/-- Error raised by `black_scholes`: the `ValueError` of line 25 of
`src/black_scholes.py` (the spec calls it `InvalidArgument`). -/
inductive PyError where
  | invalidOptionType
  deriving DecidableEq

/-- Shallow embedding of `black_scholes(S, K, T, r, sigma, option_type)`
from `src/black_scholes.py` lines 8-38.  Floats are modelled as reals,
`scipy.stats.norm.cdf` as `normCdf`, `np.log`/`np.sqrt`/`np.exp` as the
real functions, and the raised `ValueError` as `Except.error`. -/
noncomputable def black_scholes (S K T r sigma : ℝ) (option_type : String) :
    Except PyError ℝ :=
  let ot := pyLower option_type
  if ot ∉ (["call", "put"] : List String) then Except.error PyError.invalidOptionType
  else if sigma ≤ 0 ∨ T ≤ 0 then
    Except.ok (if ot = "call" then max 0 (S - K) else max 0 (K - S))
  else
    let d1 := (Real.log (S / K) + (r + 0.5 * sigma ^ 2) * T) / (sigma * Real.sqrt T)
    let d2 := d1 - sigma * Real.sqrt T
    if ot = "call" then
      Except.ok (S * normCdf d1 - K * Real.exp (-r * T) * normCdf d2)
    else
      Except.ok (K * Real.exp (-r * T) * normCdf (-d2) - S * normCdf (-d1))

lemma pyLower_call : pyLower "call" = "call" := by decide

lemma pyLower_put : pyLower "put" = "put" := by decide

/-- Errors of `get_historical_volatility`: `noData` is the `ValueError` of
line 53 of `src/black_scholes.py` (raised when the download is empty).
The constructor `insufficientData` is the `InsufficientData` failure that
the spec postulates; the source never raises it, and the constructor is
present only so that the spec claim about it can be stated. -/
inductive VolError where
  | noData
  | insufficientData
  deriving DecidableEq

/-- Model of line 55 of `src/black_scholes.py`:
`np.log(data[c] / data[c].shift(1))` for the price column.  Entry `i` of
the result is `log (p_i / p_(i-1))` when both neighbouring observations
are present and NaN (modelled as `none`) otherwise; the leading NaN that
pandas places at index 0 is dropped, which is harmless because `pandasStd`
skips NaN entries. -/
noncomputable def logReturns (prices : List (Option ℝ)) : List (Option ℝ) :=
  List.zipWith
    (fun prev cur =>
      match prev, cur with
      | some p, some c => some (Real.log (c / p))
      | _, _ => none)
    prices prices.tail

/-- Model of the pandas `Series.std()` call of line 56: NaN entries are
skipped, the sample standard deviation uses the `n - 1` divisor
(`ddof = 1`, the pandas default), and the result is NaN (`none`) when
fewer than two valid entries remain. -/
noncomputable def pandasStd (xs : List (Option ℝ)) : Option ℝ :=
  let v := xs.filterMap id
  if v.length < 2 then none
  else
    let n : ℝ := v.length
    let mean := v.sum / n
    some (Real.sqrt ((v.map (fun x => (x - mean) ^ 2)).sum / (n - 1)))

/-- Shallow embedding of `get_historical_volatility` from
`src/black_scholes.py` lines 40-58.  The external `yfinance` download is
replaced by the list of `Adj Close` observations, with `none` for a
missing (NaN) entry; `data.empty` corresponds to the empty list, and the
NaN float that pandas produces for an under-populated return series is
modelled as a `none` result. -/
noncomputable def get_historical_volatility (prices : List (Option ℝ)) :
    Except VolError (Option ℝ) :=
  if prices = [] then Except.error VolError.noData
  else
    Except.ok ((pandasStd (logReturns prices)).map (fun s => s * Real.sqrt 252))

/-- Formula of the spec, section 4.1: `d1 = (ln(S/K) + (r + 0.5 sigma^2) T) / (sigma sqrt T)`. -/
noncomputable def spec_d1 (S K T r sigma : ℝ) : ℝ :=
  (Real.log (S / K) + (r + 0.5 * sigma ^ 2) * T) / (sigma * Real.sqrt T)

/-- Formula of the spec, section 4.1: `d2 = d1 - sigma sqrt T`. -/
noncomputable def spec_d2 (S K T r sigma : ℝ) : ℝ :=
  spec_d1 S K T r sigma - sigma * Real.sqrt T

/-- Formula of the spec, section 4.1: Call price `S Phi(d1) - K e^(-rT) Phi(d2)`. -/
noncomputable def spec_callPrice (S K T r sigma : ℝ) : ℝ :=
  S * normCdf (spec_d1 S K T r sigma) -
    K * Real.exp (-r * T) * normCdf (spec_d2 S K T r sigma)

/-- Formula of the spec, section 4.1: Put price `K e^(-rT) Phi(-d2) - S Phi(-d1)`. -/
noncomputable def spec_putPrice (S K T r sigma : ℝ) : ℝ :=
  K * Real.exp (-r * T) * normCdf (-spec_d2 S K T r sigma) -
    S * normCdf (-spec_d1 S K T r sigma)

/-- Formula of the spec, section 4.2: annualized volatility as the sample
standard deviation of the return sequence (unbiased `n - 1` divisor)
scaled by the square root of the periods-per-year constant. -/
noncomputable def spec_annualizedVol (returns : List ℝ) (periodsPerYear : ℝ) : ℝ :=
  Real.sqrt
      ((returns.map (fun x => (x - returns.sum / returns.length) ^ 2)).sum /
        (returns.length - 1)) *
    Real.sqrt periodsPerYear

lemma gauss_pos (t : ℝ) : 0 < gauss t := Real.exp_pos _

lemma gauss_nonneg (t : ℝ) : 0 ≤ gauss t := (gauss_pos t).le

lemma gauss_neg (t : ℝ) : gauss (-t) = gauss t := by
  simp [gauss, neg_pow]

lemma gauss_eq_exp_neg_mul_sq (t : ℝ) : gauss t = Real.exp (-(1 / 2 : ℝ) * t ^ 2) := by
  unfold gauss
  congr 1
  ring

lemma continuous_gauss : Continuous gauss := by
  unfold gauss
  fun_prop

lemma integrable_gauss : Integrable gauss := by
  have h : Integrable (fun t : ℝ => Real.exp (-(1 / 2 : ℝ) * t ^ 2)) :=
    integrable_exp_neg_mul_sq (by norm_num)
  have he : gauss = fun t : ℝ => Real.exp (-(1 / 2 : ℝ) * t ^ 2) :=
    funext gauss_eq_exp_neg_mul_sq
  rw [he]
  exact h

lemma sqrt_two_pi_pos : 0 < Real.sqrt (2 * Real.pi) :=
  Real.sqrt_pos.mpr (by positivity)

lemma integral_gauss : (∫ t : ℝ, gauss t) = Real.sqrt (2 * Real.pi) := by
  have h := integral_gaussian (1 / 2 : ℝ)
  have he : (∫ t : ℝ, gauss t) = ∫ t : ℝ, Real.exp (-(1 / 2 : ℝ) * t ^ 2) := by
    congr 1
    funext t
    exact gauss_eq_exp_neg_mul_sq t
  rw [he, h]
  congr 1
  rw [div_div_eq_mul_div, div_one, mul_comm]

lemma normCdf_nonneg (x : ℝ) : 0 ≤ normCdf x := by
  unfold normCdf
  apply div_nonneg _ sqrt_two_pi_pos.le
  exact setIntegral_nonneg measurableSet_Iic fun t _ => gauss_nonneg t

lemma normCdf_le_one (x : ℝ) : normCdf x ≤ 1 := by
  unfold normCdf
  rw [div_le_one sqrt_two_pi_pos]
  calc (∫ t in Set.Iic x, gauss t) ≤ ∫ t : ℝ, gauss t :=
        setIntegral_le_integral integrable_gauss (Eventually.of_forall gauss_nonneg)
    _ = Real.sqrt (2 * Real.pi) := integral_gauss

lemma normCdf_neg (x : ℝ) : normCdf (-x) = 1 - normCdf x := by
  have h1 : (∫ t in Set.Iic (-x), gauss t) = ∫ t in Set.Ioi x, gauss t := by
    rw [← integral_comp_neg_Ioi]
    congr 1
    funext t
    exact gauss_neg t
  have h2 : (∫ t in Set.Iic x, gauss t) + (∫ t in Set.Ioi x, gauss t) = ∫ t : ℝ, gauss t :=
    integral_Iic_add_Ioi integrable_gauss.integrableOn integrable_gauss.integrableOn
  rw [integral_gauss] at h2
  have h3 : (∫ t in Set.Ioi x, gauss t) =
      Real.sqrt (2 * Real.pi) - ∫ t in Set.Iic x, gauss t := by
    linarith
  unfold normCdf
  rw [h1, h3, sub_div, div_self sqrt_two_pi_pos.ne']

lemma normCdf_zero : normCdf 0 = 1 / 2 := by
  have h := normCdf_neg 0
  rw [neg_zero] at h
  linarith

lemma integral_Iic_gauss_eq (x : ℝ) :
    (∫ t in Set.Iic x, gauss t) =
      (∫ t in Set.Iic (0 : ℝ), gauss t) + ∫ t in (0 : ℝ)..x, gauss t := by
  have ha : IntegrableOn gauss (Set.Iic (0 : ℝ)) := integrable_gauss.integrableOn
  have hb : IntegrableOn gauss (Set.Iic x) := integrable_gauss.integrableOn
  have h := integral_Iic_sub_Iic ha hb
  linarith

lemma normPdf_pos (x : ℝ) : 0 < normPdf x := div_pos (gauss_pos x) sqrt_two_pi_pos

lemma hasDerivAt_normCdf (x : ℝ) : HasDerivAt normCdf (normPdf x) x := by
  have hF : HasDerivAt (fun u => ∫ t in (0 : ℝ)..u, gauss t) (gauss x) x :=
    integral_hasDerivAt_right (continuous_gauss.intervalIntegrable _ _)
      (continuous_gauss.stronglyMeasurableAtFilter _ _)
      continuous_gauss.continuousAt
  have h2 : HasDerivAt
      (fun u => ((∫ t in Set.Iic (0 : ℝ), gauss t) + ∫ t in (0 : ℝ)..u, gauss t) /
        Real.sqrt (2 * Real.pi))
      (gauss x / Real.sqrt (2 * Real.pi)) x := (hF.const_add _).div_const _
  have he : normCdf = fun u =>
      ((∫ t in Set.Iic (0 : ℝ), gauss t) + ∫ t in (0 : ℝ)..u, gauss t) /
        Real.sqrt (2 * Real.pi) := by
    funext u
    unfold normCdf
    rw [integral_Iic_gauss_eq u]
  unfold normPdf
  rw [he]
  exact h2

lemma strictMono_normCdf : StrictMono normCdf :=
  strictMono_of_hasDerivAt_pos hasDerivAt_normCdf normPdf_pos

lemma tendsto_normCdf_atBot : Tendsto normCdf atBot (𝓝 0) := by
  have h00 : IntegrableOn gauss (Set.Iic (0 : ℝ)) := integrable_gauss.integrableOn
  have h0 : Tendsto (fun u : ℝ => ∫ t in u..(0 : ℝ), gauss t) atBot
      (𝓝 (∫ t in Set.Iic (0 : ℝ), gauss t)) :=
    intervalIntegral_tendsto_integral_Iic 0 h00 tendsto_id
  have h1 : ∀ u : ℝ, (∫ t in Set.Iic u, gauss t) =
      (∫ t in Set.Iic (0 : ℝ), gauss t) - ∫ t in u..(0 : ℝ), gauss t := by
    intro u
    have ha : IntegrableOn gauss (Set.Iic u) := integrable_gauss.integrableOn
    have hb : IntegrableOn gauss (Set.Iic (0 : ℝ)) := integrable_gauss.integrableOn
    have h := integral_Iic_sub_Iic ha hb
    linarith
  have h2 := h0.const_sub (∫ t in Set.Iic (0 : ℝ), gauss t)
  rw [sub_self] at h2
  have h3 : Tendsto (fun u : ℝ => ∫ t in Set.Iic u, gauss t) atBot (𝓝 0) :=
    h2.congr fun u => (h1 u).symm
  have h4 := h3.div_const (Real.sqrt (2 * Real.pi))
  rw [zero_div] at h4
  exact h4

lemma normCdf_pos (x : ℝ) : 0 < normCdf x := by
  have hle : 0 ≤ normCdf (x - 1) := by
    refine le_of_tendsto tendsto_normCdf_atBot ?_
    filter_upwards [eventually_le_atBot (x - 1)] with u hu
    exact strictMono_normCdf.le_iff_le.mpr hu
  exact lt_of_le_of_lt hle (strictMono_normCdf (sub_one_lt x))

lemma normCdf_lt_one (x : ℝ) : normCdf x < 1 := by
  have h := normCdf_pos (-x)
  rw [normCdf_neg] at h
  linarith

lemma hasDerivAt_gfun (v : ℝ) (hv : 0 < v) (m : ℝ) :
    HasDerivAt (fun u => Real.exp u * normCdf (u / v + v / 2) - normCdf (u / v - v / 2))
      (Real.exp m * normCdf (m / v + v / 2)) m := by
  have hin1 : HasDerivAt (fun u : ℝ => u / v + v / 2) (1 / v) m := by
    simpa using ((hasDerivAt_id m).div_const v).add_const (v / 2)
  have hin2 : HasDerivAt (fun u : ℝ => u / v - v / 2) (1 / v) m := by
    simpa using ((hasDerivAt_id m).div_const v).sub_const (v / 2)
  have h1 : HasDerivAt (fun u : ℝ => normCdf (u / v + v / 2))
      (normPdf (m / v + v / 2) * (1 / v)) m := (hasDerivAt_normCdf _).comp m hin1
  have h2 : HasDerivAt (fun u : ℝ => normCdf (u / v - v / 2))
      (normPdf (m / v - v / 2) * (1 / v)) m := (hasDerivAt_normCdf _).comp m hin2
  have h3 := (Real.hasDerivAt_exp m).mul h1
  have h4 := h3.sub h2
  have key : Real.exp m * normPdf (m / v + v / 2) = normPdf (m / v - v / 2) := by
    unfold normPdf gauss
    rw [mul_div_assoc', ← Real.exp_add]
    congr 1
    field_simp
    ring
  convert h4 using 1
  have expand : Real.exp m * normCdf (m / v + v / 2) +
      Real.exp m * (normPdf (m / v + v / 2) * (1 / v)) - normPdf (m / v - v / 2) * (1 / v) =
      Real.exp m * normCdf (m / v + v / 2) +
      (Real.exp m * normPdf (m / v + v / 2) - normPdf (m / v - v / 2)) * (1 / v) := by
    ring
  rw [expand, key, sub_self, zero_mul, add_zero]

lemma tendsto_gfun_atBot (v : ℝ) (hv : 0 < v) :
    Tendsto (fun u : ℝ => Real.exp u * normCdf (u / v + v / 2) - normCdf (u / v - v / 2))
      atBot (𝓝 0) := by
  have harg1 : Tendsto (fun u : ℝ => u / v + v / 2) atBot atBot :=
    tendsto_atBot_add_const_right _ _ ((tendsto_div_const_atBot_of_pos hv).mpr tendsto_id)
  have harg2 : Tendsto (fun u : ℝ => u / v - v / 2) atBot atBot := by
    have h := tendsto_atBot_add_const_right atBot (-(v / 2))
      ((tendsto_div_const_atBot_of_pos hv).mpr tendsto_id)
    simpa [sub_eq_add_neg] using h
  have hphi1 : Tendsto (fun u : ℝ => normCdf (u / v + v / 2)) atBot (𝓝 0) :=
    tendsto_normCdf_atBot.comp harg1
  have hphi2 : Tendsto (fun u : ℝ => normCdf (u / v - v / 2)) atBot (𝓝 0) :=
    tendsto_normCdf_atBot.comp harg2
  have hmul := Real.tendsto_exp_atBot.mul hphi1
  rw [zero_mul] at hmul
  have h := hmul.sub hphi2
  rw [sub_zero] at h
  exact h

lemma gfun_nonneg (v : ℝ) (hv : 0 < v) (m : ℝ) :
    normCdf (m / v - v / 2) ≤ Real.exp m * normCdf (m / v + v / 2) := by
  have hmono : StrictMono
      (fun u : ℝ => Real.exp u * normCdf (u / v + v / 2) - normCdf (u / v - v / 2)) :=
    strictMono_of_hasDerivAt_pos (fun u => hasDerivAt_gfun v hv u)
      (fun u => mul_pos (Real.exp_pos u) (normCdf_pos _))
  have h0 : 0 ≤ Real.exp m * normCdf (m / v + v / 2) - normCdf (m / v - v / 2) := by
    refine le_of_tendsto (tendsto_gfun_atBot v hv) ?_
    filter_upwards [eventually_le_atBot m] with u hu
    exact hmono.le_iff_le.mpr hu
  linarith

lemma mul_normCdf_ge (x y v : ℝ) (hx : 0 < x) (hy : 0 < y) (hv : 0 < v) :
    y * normCdf (Real.log (x / y) / v - v / 2) ≤
      x * normCdf (Real.log (x / y) / v + v / 2) := by
  have hm := gfun_nonneg v hv (Real.log (x / y))
  have hxy : Real.exp (Real.log (x / y)) = x / y := Real.exp_log (div_pos hx hy)
  have h := mul_le_mul_of_nonneg_left hm hy.le
  calc y * normCdf (Real.log (x / y) / v - v / 2)
      ≤ y * (Real.exp (Real.log (x / y)) * normCdf (Real.log (x / y) / v + v / 2)) := h
    _ = x * normCdf (Real.log (x / y) / v + v / 2) := by
        rw [hxy, ← mul_assoc, mul_div_cancel₀ x hy.ne']

/-- C1: for every spot, strike and rate, and both valid option types, if
`sigma <= 0` or `T <= 0` then `black_scholes` returns exactly the intrinsic
value, `max 0 (S - K)` for a call and `max 0 (K - S)` for a put; the
degenerate branch of lines 27-28 is structurally placed before `d1`/`d2`
are formed, so no division by `sigma * sqrt T` or logarithm occurs. -/
theorem degenerate_branch_returns_intrinsic (S K T r sigma : ℝ)
    (h : sigma ≤ 0 ∨ T ≤ 0) :
    black_scholes S K T r sigma "call" = Except.ok (max 0 (S - K)) ∧
    black_scholes S K T r sigma "put" = Except.ok (max 0 (K - S)) := by
  constructor <;> simp [black_scholes, pyLower_call, pyLower_put, h]

theorem degenerate_branch_returns_intrinsic_witness :
    black_scholes 3 1 0 0 1 "call" = Except.ok (max 0 (3 - 1)) ∧
    black_scholes 3 1 0 0 1 "put" = Except.ok (max 0 (1 - 3)) :=
  degenerate_branch_returns_intrinsic 3 1 0 0 1 (Or.inr le_rfl)

/-- C2: for positive spot, strike, volatility and time-to-expiry,
`black_scholes` returns the standard Black-Scholes closed form of the
spec, built from `spec_d1`, `spec_d2` and the standard normal CDF. -/
theorem general_branch_black_scholes_formula (S K T r sigma : ℝ)
    (_hS : 0 < S) (_hK : 0 < K) (hsig : 0 < sigma) (hT : 0 < T) :
    black_scholes S K T r sigma "call" = Except.ok (spec_callPrice S K T r sigma) ∧
    black_scholes S K T r sigma "put" = Except.ok (spec_putPrice S K T r sigma) := by
  constructor <;>
    simp [black_scholes, pyLower_call, pyLower_put, spec_callPrice, spec_putPrice,
      spec_d1, spec_d2, not_le.mpr hsig, not_le.mpr hT]

theorem general_branch_black_scholes_formula_witness :
    black_scholes 1 1 1 1 1 "call" = Except.ok (spec_callPrice 1 1 1 1 1) ∧
    black_scholes 1 1 1 1 1 "put" = Except.ok (spec_putPrice 1 1 1 1 1) :=
  general_branch_black_scholes_formula 1 1 1 1 1 one_pos one_pos one_pos one_pos

/-- C3: any option type string whose lowercase form is neither of the two
valid names makes `black_scholes` fail with the `ValueError` of line 25,
whatever the numeric arguments are. -/
theorem invalid_option_type_rejected (S K T r sigma : ℝ) (s : String)
    (hc : pyLower s ≠ "call") (hp : pyLower s ≠ "put") :
    black_scholes S K T r sigma s = Except.error PyError.invalidOptionType := by
  simp [black_scholes, hc, hp]

theorem invalid_option_type_rejected_witness :
    black_scholes 1 1 1 1 1 "straddle" = Except.error PyError.invalidOptionType :=
  invalid_option_type_rejected 1 1 1 1 1 "straddle" (by decide) (by decide)

/-- C10: `black_scholes` matches the option type case-insensitively: any
string whose lowercase form is one of the two valid names succeeds, and
returns the same value as the lowercase form itself would. -/
theorem option_type_case_insensitive (S K T r sigma : ℝ) (s : String)
    (h : pyLower s = "call" ∨ pyLower s = "put") :
    (∃ y, black_scholes S K T r sigma s = Except.ok y) ∧
    black_scholes S K T r sigma s = black_scholes S K T r sigma (pyLower s) := by
  constructor
  · rcases h with h | h
    · by_cases hd : sigma ≤ 0 ∨ T ≤ 0
      · exact ⟨max 0 (S - K), by simp [black_scholes, h, hd]⟩
      · exact ⟨spec_callPrice S K T r sigma,
          by simp [black_scholes, spec_callPrice, spec_d1, spec_d2, h, hd]⟩
    · by_cases hd : sigma ≤ 0 ∨ T ≤ 0
      · exact ⟨max 0 (K - S), by simp [black_scholes, h, hd]⟩
      · exact ⟨spec_putPrice S K T r sigma,
          by simp [black_scholes, spec_putPrice, spec_d1, spec_d2, h, hd]⟩
  · rcases h with h | h
    · rw [h]
      simp [black_scholes, h, pyLower_call]
    · rw [h]
      simp [black_scholes, h, pyLower_put]

theorem option_type_case_insensitive_witness :
    (∃ y, black_scholes 2 3 1 0 1 "CALL" = Except.ok y) ∧
    black_scholes 2 3 1 0 1 "CALL" = black_scholes 2 3 1 0 1 (pyLower "CALL") :=
  option_type_case_insensitive 2 3 1 0 1 "CALL" (Or.inl (by decide))

/-- C4 counterexample: `black_scholes` performs no validation of spot or
strike.  With a nonpositive spot (and a valid option type) it returns a
price instead of failing: here `S = -1`, `K = 1`, `T = 0` lands in the
degenerate branch and yields `max 0 (-1 - 1) = 0`. -/
theorem nonpositive_spot_not_rejected :
    black_scholes (-1) 1 0 0 0 "call" = Except.ok 0 := by
  have h : black_scholes (-1) 1 0 0 0 "call" = Except.ok (max 0 (-1 - 1)) := by
    simp [black_scholes, pyLower_call]
  rw [h, max_eq_left (by norm_num : (-1 - 1 : ℝ) ≤ 0)]

/-- C4 amended: for every valid option type, `black_scholes` always
returns a value, for all numeric inputs; in particular nonpositive spot
or strike is never rejected with an error. -/
theorem valid_option_type_never_fails (S K T r sigma : ℝ) (s : String)
    (h : pyLower s = "call" ∨ pyLower s = "put") :
    ∃ y, black_scholes S K T r sigma s = Except.ok y := by
  rcases h with h | h
  · by_cases hd : sigma ≤ 0 ∨ T ≤ 0
    · exact ⟨max 0 (S - K), by simp [black_scholes, h, hd]⟩
    · exact ⟨spec_callPrice S K T r sigma,
        by simp [black_scholes, spec_callPrice, spec_d1, spec_d2, h, hd]⟩
  · by_cases hd : sigma ≤ 0 ∨ T ≤ 0
    · exact ⟨max 0 (K - S), by simp [black_scholes, h, hd]⟩
    · exact ⟨spec_putPrice S K T r sigma,
        by simp [black_scholes, spec_putPrice, spec_d1, spec_d2, h, hd]⟩

theorem valid_option_type_never_fails_witness :
    ∃ y, black_scholes (-5) (-2) 1 1 1 "put" = Except.ok y :=
  valid_option_type_never_fails (-5) (-2) 1 1 1 "put" (Or.inr (by decide))

lemma bs_call_eq_degenerate (S K T r sigma : ℝ) (h : sigma ≤ 0 ∨ T ≤ 0) :
    black_scholes S K T r sigma "call" = Except.ok (max 0 (S - K)) := by
  simp [black_scholes, pyLower_call, h]

lemma bs_put_eq_degenerate (S K T r sigma : ℝ) (h : sigma ≤ 0 ∨ T ≤ 0) :
    black_scholes S K T r sigma "put" = Except.ok (max 0 (K - S)) := by
  simp [black_scholes, pyLower_put, h]

lemma bs_call_eq_general (S K T r sigma : ℝ) (hsig : 0 < sigma) (hT : 0 < T) :
    black_scholes S K T r sigma "call" = Except.ok (spec_callPrice S K T r sigma) := by
  simp [black_scholes, pyLower_call, spec_callPrice, spec_d1, spec_d2,
    not_le.mpr hsig, not_le.mpr hT]

lemma bs_put_eq_general (S K T r sigma : ℝ) (hsig : 0 < sigma) (hT : 0 < T) :
    black_scholes S K T r sigma "put" = Except.ok (spec_putPrice S K T r sigma) := by
  simp [black_scholes, pyLower_put, spec_putPrice, spec_d1, spec_d2,
    not_le.mpr hsig, not_le.mpr hT]

lemma spec_d1_eq (S K T r sigma : ℝ) (hS : 0 < S) (hK : 0 < K)
    (hsig : 0 < sigma) (hT : 0 < T) :
    spec_d1 S K T r sigma =
      Real.log (S / (K * Real.exp (-r * T))) / (sigma * Real.sqrt T) +
        sigma * Real.sqrt T / 2 := by
  have hw : (0:ℝ) < sigma * Real.sqrt T := mul_pos hsig (Real.sqrt_pos.mpr hT)
  have hsq : Real.sqrt T * Real.sqrt T = T := Real.mul_self_sqrt hT.le
  have hc : (0:ℝ) < K * Real.exp (-r * T) := mul_pos hK (Real.exp_pos _)
  have hlog : Real.log (S / (K * Real.exp (-r * T))) = Real.log (S / K) + r * T := by
    rw [Real.log_div hS.ne' hc.ne', Real.log_mul hK.ne' (Real.exp_pos _).ne',
      Real.log_exp, Real.log_div hS.ne' hK.ne']
    ring
  have key : Real.log (S / K) + (r + 0.5 * sigma ^ 2) * T =
      (Real.log (S / K) + r * T) + sigma * Real.sqrt T * (sigma * Real.sqrt T) / 2 := by
    have h2 : sigma * Real.sqrt T * (sigma * Real.sqrt T) = sigma ^ 2 * T := by
      rw [mul_mul_mul_comm, hsq]
      ring
    rw [h2]
    ring
  unfold spec_d1
  rw [hlog, key, add_div]
  congr 1
  field_simp
  ring

lemma spec_d2_eq (S K T r sigma : ℝ) (hS : 0 < S) (hK : 0 < K)
    (hsig : 0 < sigma) (hT : 0 < T) :
    spec_d2 S K T r sigma =
      Real.log (S / (K * Real.exp (-r * T))) / (sigma * Real.sqrt T) -
        sigma * Real.sqrt T / 2 := by
  unfold spec_d2
  rw [spec_d1_eq S K T r sigma hS hK hsig hT]
  ring

lemma spec_parity (S K T r sigma : ℝ) :
    spec_callPrice S K T r sigma - spec_putPrice S K T r sigma =
      S - K * Real.exp (-r * T) := by
  unfold spec_callPrice spec_putPrice
  rw [normCdf_neg, normCdf_neg]
  ring

lemma spec_call_nonneg (S K T r sigma : ℝ) (hS : 0 < S) (hK : 0 < K)
    (hsig : 0 < sigma) (hT : 0 < T) :
    0 ≤ spec_callPrice S K T r sigma := by
  have hw : (0:ℝ) < sigma * Real.sqrt T := mul_pos hsig (Real.sqrt_pos.mpr hT)
  have hc : (0:ℝ) < K * Real.exp (-r * T) := mul_pos hK (Real.exp_pos _)
  have h := mul_normCdf_ge S (K * Real.exp (-r * T)) (sigma * Real.sqrt T) hS hc hw
  unfold spec_callPrice
  rw [spec_d1_eq S K T r sigma hS hK hsig hT, spec_d2_eq S K T r sigma hS hK hsig hT]
  linarith

lemma spec_put_nonneg (S K T r sigma : ℝ) (hS : 0 < S) (hK : 0 < K)
    (hsig : 0 < sigma) (hT : 0 < T) :
    0 ≤ spec_putPrice S K T r sigma := by
  have hw : (0:ℝ) < sigma * Real.sqrt T := mul_pos hsig (Real.sqrt_pos.mpr hT)
  have hc : (0:ℝ) < K * Real.exp (-r * T) := mul_pos hK (Real.exp_pos _)
  have h := mul_normCdf_ge (K * Real.exp (-r * T)) S (sigma * Real.sqrt T) hc hS hw
  have hlogneg : Real.log (K * Real.exp (-r * T) / S) =
      -Real.log (S / (K * Real.exp (-r * T))) := by
    rw [← Real.log_inv, inv_div]
  rw [hlogneg] at h
  have e1 : -Real.log (S / (K * Real.exp (-r * T))) / (sigma * Real.sqrt T) -
      sigma * Real.sqrt T / 2 =
      -(Real.log (S / (K * Real.exp (-r * T))) / (sigma * Real.sqrt T) +
        sigma * Real.sqrt T / 2) := by
    ring
  have e2 : -Real.log (S / (K * Real.exp (-r * T))) / (sigma * Real.sqrt T) +
      sigma * Real.sqrt T / 2 =
      -(Real.log (S / (K * Real.exp (-r * T))) / (sigma * Real.sqrt T) -
        sigma * Real.sqrt T / 2) := by
    ring
  rw [e1, e2] at h
  unfold spec_putPrice
  rw [spec_d1_eq S K T r sigma hS hK hsig hT, spec_d2_eq S K T r sigma hS hK hsig hT]
  linarith

lemma spec_call_ge_disc (S K T r sigma : ℝ) (hS : 0 < S) (hK : 0 < K)
    (hsig : 0 < sigma) (hT : 0 < T) :
    S - K * Real.exp (-r * T) ≤ spec_callPrice S K T r sigma := by
  have h1 := spec_put_nonneg S K T r sigma hS hK hsig hT
  have h2 := spec_parity S K T r sigma
  linarith

lemma spec_put_ge_disc (S K T r sigma : ℝ) (hS : 0 < S) (hK : 0 < K)
    (hsig : 0 < sigma) (hT : 0 < T) :
    K * Real.exp (-r * T) - S ≤ spec_putPrice S K T r sigma := by
  have h1 := spec_call_nonneg S K T r sigma hS hK hsig hT
  have h2 := spec_parity S K T r sigma
  linarith

lemma pdf_shift (a b : ℝ) : normPdf (a - b) = Real.exp (a * b - b ^ 2 / 2) * normPdf a := by
  unfold normPdf gauss
  rw [mul_div_assoc', ← Real.exp_add]
  congr 2
  ring

lemma pdf_identity (S K T r sigma : ℝ) (hS : 0 < S) (hK : 0 < K)
    (hsig : 0 < sigma) (hT : 0 < T) :
    S * normPdf (spec_d1 S K T r sigma) =
      K * Real.exp (-r * T) * normPdf (spec_d2 S K T r sigma) := by
  have hw : (0:ℝ) < sigma * Real.sqrt T := mul_pos hsig (Real.sqrt_pos.mpr hT)
  have hshift : normPdf (spec_d2 S K T r sigma) =
      Real.exp (spec_d1 S K T r sigma * (sigma * Real.sqrt T) -
        (sigma * Real.sqrt T) ^ 2 / 2) * normPdf (spec_d1 S K T r sigma) := by
    unfold spec_d2
    exact pdf_shift _ _
  have harg : spec_d1 S K T r sigma * (sigma * Real.sqrt T) -
      (sigma * Real.sqrt T) ^ 2 / 2 = Real.log (S / K) + r * T := by
    unfold spec_d1
    rw [div_mul_cancel₀ _ hw.ne']
    have h2 : (sigma * Real.sqrt T) ^ 2 = sigma ^ 2 * T := by
      rw [mul_pow, Real.sq_sqrt hT.le]
    rw [h2]
    ring
  have hfinal : K * (Real.exp (-r * T) * Real.exp (Real.log (S / K) + r * T)) = S := by
    rw [← Real.exp_add]
    have harg2 : -r * T + (Real.log (S / K) + r * T) = Real.log (S / K) := by ring
    rw [harg2, Real.exp_log (div_pos hS hK), mul_comm K, div_mul_cancel₀ _ hK.ne']
  rw [hshift, harg]
  calc S * normPdf (spec_d1 S K T r sigma)
      = K * (Real.exp (-r * T) * Real.exp (Real.log (S / K) + r * T)) *
          normPdf (spec_d1 S K T r sigma) := by rw [hfinal]
    _ = K * Real.exp (-r * T) *
          (Real.exp (Real.log (S / K) + r * T) * normPdf (spec_d1 S K T r sigma)) := by
        ring

lemma hasDerivAt_spec_call (K T r sigma : ℝ) (hK : 0 < K) (hsig : 0 < sigma)
    (hT : 0 < T) (S : ℝ) (hS : 0 < S) :
    HasDerivAt (fun s => spec_callPrice s K T r sigma)
      (normCdf (spec_d1 S K T r sigma)) S := by
  have hdiv : HasDerivAt (fun s : ℝ => s / K) (1 / K) S := (hasDerivAt_id S).div_const K
  have hlog0 : HasDerivAt Real.log (S / K)⁻¹ (S / K) :=
    Real.hasDerivAt_log (div_pos hS hK).ne'
  have hlog1 : HasDerivAt (fun s : ℝ => Real.log (s / K)) ((S / K)⁻¹ * (1 / K)) S :=
    hlog0.comp S hdiv
  have hlogS : (S / K)⁻¹ * (1 / K) = 1 / S := by
    field_simp
    ring
  rw [hlogS] at hlog1
  have hd1 : HasDerivAt (fun s : ℝ => spec_d1 s K T r sigma)
      (1 / S / (sigma * Real.sqrt T)) S :=
    (hlog1.add_const ((r + 0.5 * sigma ^ 2) * T)).div_const (sigma * Real.sqrt T)
  have hphi1 : HasDerivAt (fun s : ℝ => normCdf (spec_d1 s K T r sigma))
      (normPdf (spec_d1 S K T r sigma) * (1 / S / (sigma * Real.sqrt T))) S :=
    (hasDerivAt_normCdf _).comp S hd1
  have hterm1 : HasDerivAt (fun s : ℝ => s * normCdf (spec_d1 s K T r sigma))
      (1 * normCdf (spec_d1 S K T r sigma) +
        S * (normPdf (spec_d1 S K T r sigma) * (1 / S / (sigma * Real.sqrt T)))) S :=
    (hasDerivAt_id S).mul hphi1
  have hd2 : HasDerivAt (fun s : ℝ => spec_d2 s K T r sigma)
      (1 / S / (sigma * Real.sqrt T)) S := hd1.sub_const (sigma * Real.sqrt T)
  have hphi2 : HasDerivAt (fun s : ℝ => normCdf (spec_d2 s K T r sigma))
      (normPdf (spec_d2 S K T r sigma) * (1 / S / (sigma * Real.sqrt T))) S :=
    (hasDerivAt_normCdf _).comp S hd2
  have hterm2 : HasDerivAt
      (fun s : ℝ => K * Real.exp (-r * T) * normCdf (spec_d2 s K T r sigma))
      (K * Real.exp (-r * T) *
        (normPdf (spec_d2 S K T r sigma) * (1 / S / (sigma * Real.sqrt T)))) S :=
    hphi2.const_mul _
  have htotal := hterm1.sub hterm2
  have hid := pdf_identity S K T r sigma hS hK hsig hT
  have hD : 1 * normCdf (spec_d1 S K T r sigma) +
      S * (normPdf (spec_d1 S K T r sigma) * (1 / S / (sigma * Real.sqrt T))) -
      K * Real.exp (-r * T) *
        (normPdf (spec_d2 S K T r sigma) * (1 / S / (sigma * Real.sqrt T))) =
      normCdf (spec_d1 S K T r sigma) := by
    have h3 : K * Real.exp (-r * T) *
        (normPdf (spec_d2 S K T r sigma) * (1 / S / (sigma * Real.sqrt T))) =
        S * normPdf (spec_d1 S K T r sigma) * (1 / S / (sigma * Real.sqrt T)) := by
      rw [hid]
      ring
    rw [h3]
    ring
  rw [hD] at htotal
  have hfun : (fun s => spec_callPrice s K T r sigma) =
      fun s : ℝ => s * normCdf (spec_d1 s K T r sigma) -
        K * Real.exp (-r * T) * normCdf (spec_d2 s K T r sigma) := by
    funext s
    rfl
  rw [hfun]
  exact htotal

lemma spec_call_mono (K T r sigma : ℝ) (hK : 0 < K) (hsig : 0 < sigma) (hT : 0 < T)
    (S1 S2 : ℝ) (h1 : 0 < S1) (h12 : S1 ≤ S2) :
    spec_callPrice S1 K T r sigma ≤ spec_callPrice S2 K T r sigma := by
  have h2 : (0:ℝ) < S2 := lt_of_lt_of_le h1 h12
  have hmono : StrictMonoOn (fun s => spec_callPrice s K T r sigma) (Set.Ioi 0) := by
    have hcont : ContinuousOn (fun s => spec_callPrice s K T r sigma) (Set.Ioi 0) :=
      fun x hx =>
        (hasDerivAt_spec_call K T r sigma hK hsig hT x hx).continuousAt.continuousWithinAt
    have hderiv : ∀ x ∈ interior (Set.Ioi (0:ℝ)),
        HasDerivWithinAt (fun s => spec_callPrice s K T r sigma)
          (normCdf (spec_d1 x K T r sigma)) (interior (Set.Ioi (0:ℝ))) x := by
      intro x hx
      rw [interior_Ioi] at hx ⊢
      exact (hasDerivAt_spec_call K T r sigma hK hsig hT x hx).hasDerivWithinAt
    have hpos : ∀ x ∈ interior (Set.Ioi (0:ℝ)), 0 < normCdf (spec_d1 x K T r sigma) :=
      fun x _ => normCdf_pos _
    exact strictMonoOn_of_hasDerivWithinAt_pos (convex_Ioi 0) hcont hderiv hpos
  rcases eq_or_lt_of_le h12 with he | hlt
  · rw [he]
  · exact (hmono h1 h2 hlt).le

lemma spec_put_anti (K T r sigma : ℝ) (hK : 0 < K) (hsig : 0 < sigma) (hT : 0 < T)
    (S1 S2 : ℝ) (h1 : 0 < S1) (h12 : S1 ≤ S2) :
    spec_putPrice S2 K T r sigma ≤ spec_putPrice S1 K T r sigma := by
  have h2 : (0:ℝ) < S2 := lt_of_lt_of_le h1 h12
  have hlip : ‖spec_callPrice S2 K T r sigma - spec_callPrice S1 K T r sigma‖ ≤
      1 * ‖S2 - S1‖ := by
    refine (convex_Ioi (0:ℝ)).norm_image_sub_le_of_norm_hasDerivWithin_le
      (fun x hx => (hasDerivAt_spec_call K T r sigma hK hsig hT x hx).hasDerivWithinAt)
      (fun x hx => ?_) h1 h2
    rw [Real.norm_eq_abs, abs_of_nonneg (normCdf_nonneg _)]
    exact normCdf_le_one _
  have hcall : spec_callPrice S2 K T r sigma - spec_callPrice S1 K T r sigma ≤ S2 - S1 := by
    rw [one_mul, Real.norm_eq_abs, Real.norm_eq_abs] at hlip
    have h3 := le_abs_self (spec_callPrice S2 K T r sigma - spec_callPrice S1 K T r sigma)
    have h4 : |S2 - S1| = S2 - S1 := abs_of_nonneg (by linarith)
    linarith
  have hp1 := spec_parity S1 K T r sigma
  have hp2 := spec_parity S2 K T r sigma
  linarith

/-- C5 counterexample: with a sufficiently negative rate the claimed
intrinsic-value lower bound fails in the general branch.  At
`S = 100, K = 50, T = 1, r = -2, sigma = 1` the call price is below the
intrinsic value `max 0 (S - K) = 50`. -/
theorem call_price_below_intrinsic_value :
    black_scholes 100 50 1 (-2) 1 "call" =
      Except.ok (100 * normCdf (Real.log 2 - 1.5) -
        50 * Real.exp 2 * normCdf (Real.log 2 - 2.5)) ∧
    100 * normCdf (Real.log 2 - 1.5) - 50 * Real.exp 2 * normCdf (Real.log 2 - 2.5) <
      max 0 (100 - 50) := by
  constructor
  · have h1 : black_scholes 100 50 1 (-2) 1 "call" =
        Except.ok (spec_callPrice 100 50 1 (-2) 1) :=
      bs_call_eq_general 100 50 1 (-2) 1 one_pos one_pos
    rw [h1]
    have hd1v : spec_d1 100 50 1 (-2) 1 = Real.log 2 - 1.5 := by
      unfold spec_d1
      rw [Real.sqrt_one]
      norm_num
      ring
    have hd2v : spec_d2 100 50 1 (-2) 1 = Real.log 2 - 2.5 := by
      unfold spec_d2
      rw [hd1v, Real.sqrt_one]
      norm_num
      ring
    unfold spec_callPrice
    rw [hd1v, hd2v]
    norm_num
  · have hlt : normCdf (Real.log 2 - 1.5) < normCdf 0 := by
      apply strictMono_normCdf
      have h2 := Real.log_two_lt_d9
      linarith
    rw [normCdf_zero] at hlt
    have hpos : 0 < 50 * Real.exp 2 * normCdf (Real.log 2 - 2.5) :=
      mul_pos (by positivity) (normCdf_pos _)
    have hmax : max (0:ℝ) (100 - 50) = 50 := by
      rw [max_eq_right (by norm_num : (0:ℝ) ≤ 100 - 50)]
      norm_num
    rw [hmax]
    linarith

/-- C5 amended: for positive spot and strike, the price is always
non-negative; in the degenerate branch (`sigma <= 0` or `T <= 0`) it
equals the intrinsic value exactly, and in the general branch it is at
least the discounted intrinsic bound, `max 0 (S - K e^(-rT))` for a call
and `max 0 (K e^(-rT) - S)` for a put.  The undiscounted intrinsic bound
of the claim fails when `r * T` is nonzero (see the counterexample). -/
theorem price_nonneg_and_lower_bounds (S K T r sigma : ℝ) (hS : 0 < S) (hK : 0 < K) :
    ∃ yc yp,
      black_scholes S K T r sigma "call" = Except.ok yc ∧
      black_scholes S K T r sigma "put" = Except.ok yp ∧
      0 ≤ yc ∧ 0 ≤ yp ∧
      (0 < sigma → 0 < T →
        max 0 (S - K * Real.exp (-r * T)) ≤ yc ∧
        max 0 (K * Real.exp (-r * T) - S) ≤ yp) ∧
      (sigma ≤ 0 ∨ T ≤ 0 → yc = max 0 (S - K) ∧ yp = max 0 (K - S)) := by
  by_cases hd : sigma ≤ 0 ∨ T ≤ 0
  · refine ⟨max 0 (S - K), max 0 (K - S),
      bs_call_eq_degenerate S K T r sigma hd, bs_put_eq_degenerate S K T r sigma hd,
      le_max_left 0 _, le_max_left 0 _, ?_, fun _ => ⟨rfl, rfl⟩⟩
    intro hsig hT
    rcases hd with hd | hd
    · exact absurd hsig (not_lt.mpr hd)
    · exact absurd hT (not_lt.mpr hd)
  · push_neg at hd
    obtain ⟨hsig, hT⟩ := hd
    refine ⟨spec_callPrice S K T r sigma, spec_putPrice S K T r sigma,
      bs_call_eq_general S K T r sigma hsig hT, bs_put_eq_general S K T r sigma hsig hT,
      spec_call_nonneg S K T r sigma hS hK hsig hT,
      spec_put_nonneg S K T r sigma hS hK hsig hT, ?_, ?_⟩
    · intro _ _
      exact ⟨max_le (spec_call_nonneg S K T r sigma hS hK hsig hT)
          (spec_call_ge_disc S K T r sigma hS hK hsig hT),
        max_le (spec_put_nonneg S K T r sigma hS hK hsig hT)
          (spec_put_ge_disc S K T r sigma hS hK hsig hT)⟩
    · intro hcontra
      rcases hcontra with hc | hc
      · exact absurd hsig (not_lt.mpr hc)
      · exact absurd hT (not_lt.mpr hc)

theorem price_nonneg_and_lower_bounds_witness :
    ∃ yc yp,
      black_scholes 2 1 1 0 1 "call" = Except.ok yc ∧
      black_scholes 2 1 1 0 1 "put" = Except.ok yp ∧
      0 ≤ yc ∧ 0 ≤ yp ∧
      (0 < (1:ℝ) → 0 < (1:ℝ) →
        max 0 (2 - 1 * Real.exp (-0 * 1)) ≤ yc ∧
        max 0 (1 * Real.exp (-0 * 1) - 2) ≤ yp) ∧
      ((1:ℝ) ≤ 0 ∨ (1:ℝ) ≤ 0 → yc = max 0 (2 - 1) ∧ yp = max 0 (1 - 2)) :=
  price_nonneg_and_lower_bounds 2 1 1 0 1 (by norm_num) one_pos

/-- C6: for positive volatility and time-to-expiry (and positive spot and
strike) the call and put prices satisfy exact put-call parity
`Call - Put = S - K e^(-rT)`, hence in particular parity within the
claimed relative tolerance of 1e-6. -/
theorem put_call_parity (S K T r sigma : ℝ) (_hS : 0 < S) (_hK : 0 < K)
    (hT : 0 < T) (hsig : 0 < sigma) :
    ∃ yc yp,
      black_scholes S K T r sigma "call" = Except.ok yc ∧
      black_scholes S K T r sigma "put" = Except.ok yp ∧
      yc - yp = S - K * Real.exp (-r * T) ∧
      |yc - yp - (S - K * Real.exp (-r * T))| ≤ 1e-6 * |S - K * Real.exp (-r * T)| := by
  refine ⟨spec_callPrice S K T r sigma, spec_putPrice S K T r sigma,
    bs_call_eq_general S K T r sigma hsig hT, bs_put_eq_general S K T r sigma hsig hT,
    spec_parity S K T r sigma, ?_⟩
  rw [spec_parity S K T r sigma, sub_self, abs_zero]
  positivity

theorem put_call_parity_witness :
    ∃ yc yp,
      black_scholes 1 2 1 0 1 "call" = Except.ok yc ∧
      black_scholes 1 2 1 0 1 "put" = Except.ok yp ∧
      yc - yp = 1 - 2 * Real.exp (-0 * 1) ∧
      |yc - yp - (1 - 2 * Real.exp (-0 * 1))| ≤ 1e-6 * |1 - 2 * Real.exp (-0 * 1)| :=
  put_call_parity 1 2 1 0 1 one_pos two_pos one_pos one_pos

/-- C7: holding strike (positive, per the data-model invariant),
time-to-expiry, rate and volatility fixed, the call price is
non-decreasing and the put price non-increasing in the spot, in both the
degenerate and the general branch. -/
theorem call_mono_put_anti_in_spot (K T r sigma S1 S2 : ℝ)
    (hK : 0 < K) (h1 : 0 < S1) (h12 : S1 ≤ S2) :
    ∃ c1 c2 p1 p2,
      black_scholes S1 K T r sigma "call" = Except.ok c1 ∧
      black_scholes S2 K T r sigma "call" = Except.ok c2 ∧
      black_scholes S1 K T r sigma "put" = Except.ok p1 ∧
      black_scholes S2 K T r sigma "put" = Except.ok p2 ∧
      c1 ≤ c2 ∧ p2 ≤ p1 := by
  by_cases hd : sigma ≤ 0 ∨ T ≤ 0
  · exact ⟨max 0 (S1 - K), max 0 (S2 - K), max 0 (K - S1), max 0 (K - S2),
      bs_call_eq_degenerate S1 K T r sigma hd, bs_call_eq_degenerate S2 K T r sigma hd,
      bs_put_eq_degenerate S1 K T r sigma hd, bs_put_eq_degenerate S2 K T r sigma hd,
      max_le_max le_rfl (by linarith), max_le_max le_rfl (by linarith)⟩
  · push_neg at hd
    obtain ⟨hsig, hT⟩ := hd
    exact ⟨spec_callPrice S1 K T r sigma, spec_callPrice S2 K T r sigma,
      spec_putPrice S1 K T r sigma, spec_putPrice S2 K T r sigma,
      bs_call_eq_general S1 K T r sigma hsig hT, bs_call_eq_general S2 K T r sigma hsig hT,
      bs_put_eq_general S1 K T r sigma hsig hT, bs_put_eq_general S2 K T r sigma hsig hT,
      spec_call_mono K T r sigma hK hsig hT S1 S2 h1 h12,
      spec_put_anti K T r sigma hK hsig hT S1 S2 h1 h12⟩

theorem call_mono_put_anti_in_spot_witness :
    ∃ c1 c2 p1 p2,
      black_scholes 1 1 1 0 1 "call" = Except.ok c1 ∧
      black_scholes 2 1 1 0 1 "call" = Except.ok c2 ∧
      black_scholes 1 1 1 0 1 "put" = Except.ok p1 ∧
      black_scholes 2 1 1 0 1 "put" = Except.ok p2 ∧
      c1 ≤ c2 ∧ p2 ≤ p1 :=
  call_mono_put_anti_in_spot 1 1 0 1 1 2 one_pos one_pos one_le_two

lemma zipWith_replicate_self {α β : Type} (f : α → α → β) (a : α) (n : ℕ) :
    List.zipWith f (List.replicate (n + 1) a) (List.replicate n a) =
      List.replicate n (f a a) := by
  induction n with
  | zero => rfl
  | succ k ih =>
      have h1 : List.replicate (k + 1 + 1) a = a :: List.replicate (k + 1) a :=
        List.replicate_succ a (k + 1)
      have h2 : List.replicate (k + 1) a = a :: List.replicate k a :=
        List.replicate_succ a k
      rw [h1, h2, List.zipWith_cons_cons, ← h2, ih, List.replicate_succ]

lemma logReturns_replicate (c : ℝ) (n : ℕ) :
    logReturns (List.replicate n (some c)) =
      List.replicate (n - 1) (some (Real.log (c / c))) := by
  cases n with
  | zero => rfl
  | succ k =>
      unfold logReturns
      have ht : (List.replicate (k + 1) (some c)).tail = List.replicate k (some c) := by
        rw [List.replicate_succ]
        rfl
      rw [ht]
      have h := zipWith_replicate_self
        (fun prev cur =>
          match prev, cur with
          | some p, some c => some (Real.log (c / p))
          | _, _ => none)
        (some c) k
      rw [h]
      rfl

lemma filterMap_id_replicate_some (x : ℝ) (m : ℕ) :
    (List.replicate m (some x)).filterMap id = List.replicate m x := by
  induction m with
  | zero => rfl
  | succ k ih => simp [List.replicate_succ, ih]

lemma pandasStd_replicate_zero (k : ℕ) (hk : 2 ≤ k) :
    pandasStd (List.replicate k (some (0:ℝ))) = some 0 := by
  unfold pandasStd
  rw [filterMap_id_replicate_some]
  simp only [List.length_replicate]
  rw [if_neg (by omega)]
  have hsum : (List.replicate k (0:ℝ)).sum = 0 := by simp
  rw [hsum, zero_div, List.map_replicate]
  norm_num

lemma ghv_constant (c : ℝ) (n : ℕ) (hc : 0 < c) (hn : 3 ≤ n) :
    get_historical_volatility (List.replicate n (some c)) = Except.ok (some 0) := by
  have hne : List.replicate n (some c) ≠ [] := by
    intro h
    have := congrArg List.length h
    simp at this
    omega
  unfold get_historical_volatility
  rw [if_neg hne, logReturns_replicate, div_self hc.ne', Real.log_one,
    pandasStd_replicate_zero (n - 1) (by omega)]
  simp

lemma ghv_formula (ps : List (Option ℝ)) (hne : ps ≠ [])
    (hlen : 2 ≤ ((logReturns ps).filterMap id).length) :
    get_historical_volatility ps =
      Except.ok (some (spec_annualizedVol ((logReturns ps).filterMap id) 252)) := by
  have h2 : ¬ ((logReturns ps).filterMap id).length < 2 := not_lt.mpr hlen
  simp [get_historical_volatility, pandasStd, spec_annualizedVol, hne, h2]

/-- C8 counterexample: a single-element price series is not rejected.
The source only checks for an empty download; with one observation the
return series has no valid entry, pandas `std` yields NaN, and the
function returns that NaN instead of failing with `InsufficientData`. -/
theorem single_element_series_gives_nan :
    get_historical_volatility [some 1] = Except.ok none ∧
    (Except.ok none : Except VolError (Option ℝ)) ≠
      Except.error VolError.insufficientData := by
  constructor
  · simp [get_historical_volatility, logReturns, pandasStd]
  · simp

/-- C8 amended: `get_historical_volatility` fails with `NoData` exactly on
the empty series; every nonempty series with fewer than two usable
returns (single-element and all-missing series included) instead returns
NaN (`none`), and no `InsufficientData` error is ever raised. -/
theorem vol_noData_and_nan_behavior :
    get_historical_volatility ([] : List (Option ℝ)) = Except.error VolError.noData ∧
    (∀ ps : List (Option ℝ), ps ≠ [] →
        ((logReturns ps).filterMap id).length < 2 →
        get_historical_volatility ps = Except.ok none) := by
  constructor
  · simp [get_historical_volatility]
  · intro ps hne hlen
    simp [get_historical_volatility, pandasStd, hne, hlen]

theorem vol_noData_and_nan_behavior_witness :
    get_historical_volatility [some 2, none] = Except.ok none :=
  vol_noData_and_nan_behavior.2 [some 2, none] (by simp) (by simp [logReturns])

/-- C9 counterexample: a constant positive series of length exactly 2
yields a single valid return, whose sample standard deviation with the
`n - 1` divisor is NaN in pandas; the function therefore returns NaN
(`none`) rather than the claimed exact 0. -/
theorem constant_series_length_two_gives_nan :
    get_historical_volatility [some 1, some 1] = Except.ok none ∧
    (Except.ok none : Except VolError (Option ℝ)) ≠ Except.ok (some (0:ℝ)) := by
  constructor
  · simp [get_historical_volatility, logReturns, pandasStd]
  · simp

/-- C9 amended: for every price series leaving at least 2 valid log
returns after cleaning, the function returns the sample standard
deviation of those returns (unbiased `n - 1` divisor, chronological
order) times `sqrt 252`; consequently a constant positive series of
length at least 3 returns exactly 0.  (A length-2 constant series
instead returns NaN, see the counterexample.) -/
theorem vol_formula_and_constant_series :
    (∀ ps : List (Option ℝ), ps ≠ [] →
        2 ≤ ((logReturns ps).filterMap id).length →
        get_historical_volatility ps =
          Except.ok (some (spec_annualizedVol ((logReturns ps).filterMap id) 252))) ∧
    (∀ (c : ℝ) (n : ℕ), 0 < c → 3 ≤ n →
        get_historical_volatility (List.replicate n (some c)) = Except.ok (some 0)) :=
  ⟨ghv_formula, ghv_constant⟩

theorem vol_formula_and_constant_series_witness :
    get_historical_volatility [some 1, some 1, some 1] =
      Except.ok (some (spec_annualizedVol
        ((logReturns [some 1, some 1, some 1]).filterMap id) 252)) ∧
    get_historical_volatility (List.replicate 3 (some (1:ℝ))) = Except.ok (some 0) :=
  ⟨vol_formula_and_constant_series.1 [some 1, some 1, some 1] (by simp)
      (by simp [logReturns]),
    vol_formula_and_constant_series.2 1 3 one_pos (by norm_num)⟩
